import Mathlib

/-!
Shallow embedding of `torchensemble/bagging.py` (BaggingClassifier and
BaggingRegressor) and proofs about it.

Modelling conventions:
* A 2-D tensor is a `List (List ℚ)` (outer list = rows/examples).  Exact
  rational arithmetic stands in for the float arithmetic of the source.
* `F.softmax(z, dim=1)` is the row-wise normalised exponential.  The float
  exponential itself is abstracted as a parameter `e : ℚ → ℚ`; the only
  property of the real exponential the code's behaviour rests on is its
  strict positivity, which appears as a hypothesis where needed.
* Randomness (`torch.randint`) is modelled by passing the drawn values in
  explicitly as data.
* The Adam optimizer construction and its gradient step are abstracted as
  parameters (`adamInit`, `step`): the claims about `fit` concern data flow
  and isolation, not Adam's numeric content.
-/

namespace Torchensemble

/-- A 2-D tensor: a list of rows. -/
abbrev Mat := List (List ℚ)

/-- Model of `torch.zeros(r, c)`. -/
def matZeros (r c : ℕ) : Mat := List.replicate r (List.replicate c (0 : ℚ))

/-- Elementwise tensor addition (`+=` in the source); shapes are assumed to
agree, as the numeric engine enforces in the source. -/
def matAdd (A B : Mat) : Mat := List.zipWith (List.zipWith (· + ·)) A B

/-- Elementwise division of a tensor by a scalar count (`/= n_estimators`). -/
def matDivN (A : Mat) (n : ℕ) : Mat := A.map (List.map (fun x => x / (n : ℚ)))

/-- Entry `(i, j)` of a tensor, with default `0` out of range. -/
def entry (A : Mat) (i j : ℕ) : ℚ := (A.getD i []).getD j 0

/-- Predicate: `A` is an `r × c` tensor. -/
def IsShape (A : Mat) (r c : ℕ) : Prop :=
  A.length = r ∧ ∀ row ∈ A, row.length = c

/-- Row-wise normalised exponential of one row, the kernel of
`F.softmax(·, dim=1)`; `e` is the (abstracted float) exponential map. -/
def softmaxRow (e : ℚ → ℚ) (row : List ℚ) : List ℚ :=
  row.map (fun x => e x / (row.map e).sum)

/-- Model of `F.softmax(Z, dim=1)`: the normalised exponential applied to each row. -/
def softmax (e : ℚ → ℚ) (Z : Mat) : Mat := Z.map (softmaxRow e)

/-- A base estimator: its own parameter vector and its forward map.  The
forward map receives the parameters explicitly so that "the estimator's
output" is a function of its parameters, as in the source. -/
structure Estimator where
  params : List ℚ
  apply : List ℚ → Mat → Mat

/-- Output of an estimator on a batch (`estimator(X)` in the source). -/
def Estimator.run (est : Estimator) (X : Mat) : Mat := est.apply est.params X

/-- Modelled from the spec: the `BaseModule` base class (`torchensemble/_base.py`
is not part of the sources).  Per spec §3 it owns the ordered estimator
sequence, `n_estimators`, `output_dim`, the shared hyperparameters `lr`,
`weight_decay`, `epochs`, `log_interval`, and the train/eval mode flag that
`self.train()` / `self.eval()` toggle. -/
structure BaseModule where
  estimators_ : List Estimator
  n_estimators : ℕ
  output_dim : ℕ
  lr : ℚ
  weight_decay : ℚ
  epochs : ℕ
  log_interval : ℕ
  training : Bool

/-- Source `BaggingClassifier.forward`: accumulate the softmax class distribution of
every estimator into a zero tensor, then divide by `n_estimators`. -/
def BaggingClassifier.forward (e : ℚ → ℚ) (m : BaseModule) (X : Mat) : Mat :=
  let batch_size := X.length
  let y_pred_proba := matZeros batch_size m.output_dim
  let y_pred_proba :=
    m.estimators_.foldl (fun y est => matAdd y (softmax e (est.run X))) y_pred_proba
  matDivN y_pred_proba m.n_estimators

/-- Source `BaggingRegressor.forward`: accumulate the raw output of every estimator
into a zero tensor, then divide by `n_estimators`. -/
def BaggingRegressor.forward (m : BaseModule) (X : Mat) : Mat :=
  let batch_size := X.length
  let y_pred := matZeros batch_size m.output_dim
  let y_pred := m.estimators_.foldl (fun y est => matAdd y (est.run X)) y_pred
  matDivN y_pred m.n_estimators

/-- Model of `torch.unique` applied to the `torch.randint` draw: the distinct drawn
values, in increasing order (`torch.unique` sorts its output). -/
def torchUnique (l : List ℕ) : List ℕ := l.dedup.insertionSort (· ≤ ·)

/-- Row gather `xs[idx]`: the rows of `xs` at the positions in `idx`, in the
order of `idx` (`d` is a default for out-of-range positions, which the
source's numeric engine would reject). -/
def indexSelect {α : Type} (xs : List α) (d : α) (idx : List ℕ) : List α :=
  idx.map (fun i => xs.getD i d)

/-- Model of `output.data.max(1)[1]` for one row: the index of the first maximal
entry. -/
def argmaxIdx (row : List ℚ) : ℕ :=
  (row.foldl (fun st x =>
      if st.2.2 < x then (st.2.1, st.2.1 + 1, x) else (st.1, st.2.1 + 1, st.2.2))
    ((0 : ℕ), (0 : ℕ), row.getD 0 0)).1

/-- Model of `y_pred.eq(y_test.view(-1)).sum()` after `y_pred = output.data.max(1)[1]`:
how many examples' arg-max class equals the target class. -/
def countCorrect (output : Mat) (y : List ℕ) : ℕ :=
  ((output.map argmaxIdx).zip y).countP (fun p => p.1 == p.2)

/-- Model of `nn.MSELoss()` with its default mean reduction: the mean squared
difference over all entries. -/
def mseLoss (output target : Mat) : ℚ :=
  ((output.flatten.zip target.flatten).map (fun p => (p.1 - p.2) ^ 2)).sum
    / (target.flatten.length : ℚ)

/-- Source `BaggingClassifier.predict`: switch to evaluation mode (`self.eval()`,
which only clears the train-mode flag), accumulate the per-batch correct
count through `forward`, and return the dataset-level percentage accuracy.
`len(test_loader.dataset)` is modelled as the total number of examples the
loader yields, which is what it equals for a loader enumerating its
dataset. -/
def BaggingClassifier.predict (e : ℚ → ℚ) (m : BaseModule)
    (test_loader : List (Mat × List ℕ)) : ℚ × BaseModule :=
  let m := { m with training := false }
  let correct : ℕ := test_loader.foldl
    (fun acc b => acc + countCorrect (BaggingClassifier.forward e m b.1) b.2) 0
  (100 * (correct : ℚ) / ((test_loader.map (fun b => b.2.length)).sum : ℚ), m)

/-- Source `BaggingRegressor.predict`: switch to evaluation mode, accumulate the
per-batch MSE through `forward`, and divide by `len(test_loader)`, the
number of batches. -/
def BaggingRegressor.predict (m : BaseModule) (test_loader : List (Mat × Mat)) :
    ℚ × BaseModule :=
  let m := { m with training := false }
  let mse : ℚ := test_loader.foldl
    (fun acc b => acc + mseLoss (BaggingRegressor.forward m b.1) b.2) 0
  (mse / (test_loader.length : ℚ), m)

/-- One iteration of the inner batch loop of `fit`: build the bootstrap mask
from this batch's `torch.randint` outcomes (`draw`), gather the sub-batch,
and run one forward/backward/optimizer update.  The loss evaluation,
`backward()` and the Adam update are abstracted as `step` (their numeric
content plays no role in the claims about `fit`); `selT` gathers target
rows (targets are class indices for the classifier, tensors for the
regressor). -/
def trainBatch {σ β : Type} (step : Estimator → σ → Mat × β → Estimator × σ)
    (selT : β → List ℕ → β) (draw : List ℕ) (p : Estimator × σ) (b : Mat × β) :
    Estimator × σ :=
  let sampling_mask := torchUnique draw
  let sampling_X_train := indexSelect b.1 [] sampling_mask
  let sampling_y_train := selT b.2 sampling_mask
  step p.1 p.2 (sampling_X_train, sampling_y_train)

/-- One estimator's full training session inside `fit`: a fresh optimizer is
built from this estimator's own parameters (`torch.optim.Adam(
estimator.parameters(), ...)`, abstracted as `adamInit`), then every epoch
re-iterates the full batch stream.  `draws epoch batch_idx` holds that
batch's `torch.randint` outcomes. -/
def trainOneEstimator {σ β : Type} (step : Estimator → σ → Mat × β → Estimator × σ)
    (selT : β → List ℕ → β) (adamInit : List ℚ → σ) (epochs : ℕ)
    (train_loader : List (Mat × β)) (draws : ℕ → ℕ → List ℕ) (est : Estimator) :
    Estimator :=
  let estimator_optimizer := adamInit est.params
  ((List.range epochs).foldl (fun p epoch =>
      (train_loader.enum).foldl (fun q b => trainBatch step selT (draws epoch b.1) q b.2) p)
    (est, estimator_optimizer)).1

/-- The sequential per-estimator loop of `fit`
(`for est_idx, estimator in enumerate(self.estimators_)`): estimator `i` is
replaced, in index order, by the result of its own training session. -/
def fitSessions (trainOne : ℕ → Estimator → Estimator) :
    ℕ → List Estimator → List Estimator
  | _, [] => []
  | i, est :: rest => trainOne i est :: fitSessions trainOne (i + 1) rest

/-- Source `BaggingClassifier.fit`: set train mode (`self.train()`), then train each
estimator in turn, each with a fresh Adam optimizer built from `self.lr`,
`self.weight_decay` and that estimator's own parameters.
`_validate_parameters` (defined in `_base.py`, not among the sources) is,
per the spec, a pure hyperparameter check with no state effect, so it
contributes nothing here.  `draws est_idx epoch batch_idx` holds the
`torch.randint` outcomes consumed at that point of the loop. -/
def BaggingClassifier.fit {σ : Type} (step : Estimator → σ → Mat × List ℕ → Estimator × σ)
    (adamInit : ℚ → ℚ → List ℚ → σ) (train_loader : List (Mat × List ℕ))
    (draws : ℕ → ℕ → ℕ → List ℕ) (m : BaseModule) : BaseModule :=
  { m with
    training := true,
    estimators_ := fitSessions (fun i est =>
      trainOneEstimator step (fun y mask => indexSelect y 0 mask)
        (adamInit m.lr m.weight_decay) m.epochs train_loader (draws i) est)
      0 m.estimators_ }

/-- Source `BaggingRegressor.fit`: identical loop structure to the classifier's,
with tensor-valued targets (and `nn.MSELoss` inside the abstract step). -/
def BaggingRegressor.fit {σ : Type} (step : Estimator → σ → Mat × Mat → Estimator × σ)
    (adamInit : ℚ → ℚ → List ℚ → σ) (train_loader : List (Mat × Mat))
    (draws : ℕ → ℕ → ℕ → List ℕ) (m : BaseModule) : BaseModule :=
  { m with
    training := true,
    estimators_ := fitSessions (fun i est =>
      trainOneEstimator step (fun y mask => indexSelect y [] mask)
        (adamInit m.lr m.weight_decay) m.epochs train_loader (draws i) est)
      0 m.estimators_ }

/-- Python's `'03d'` field: decimal digits, zero-padded to width 3 (numbers
of four or more digits print in full). -/
def fmt03d (n : ℕ) : String :=
  if n < 1000 then
    String.mk [Nat.digitChar (n / 100 % 10), Nat.digitChar (n / 10 % 10),
      Nat.digitChar (n % 10)]
  else Nat.repr n

/-- Python's `'.5f'` field on the loss value: fixed-point rendering with
exactly five digits after the decimal point.  Rounding of the sixth decimal
is modelled as round-half-up; the source formats a float, whose exact
decimal midpoints are immaterial to the format's shape. -/
def fmt5f (q : ℚ) : String :=
  let n : ℤ := round (q * 100000)
  let a : ℕ := n.natAbs
  (if n < 0 then "-" else "") ++ Nat.repr (a / 100000) ++ "." ++
    String.mk [Nat.digitChar (a / 10000 % 10), Nat.digitChar (a / 1000 % 10),
      Nat.digitChar (a / 100 % 10), Nat.digitChar (a / 10 % 10),
      Nat.digitChar (a % 10)]

/-- The classifier's training log line
(`'Estimator: ... | Epoch: ... | Batch: ... | Loss: ... | Correct: c/t'`). -/
def classifierLogMsg (est_idx epoch batch_idx : ℕ) (loss : ℚ)
    (correct total : ℕ) : String :=
  "Estimator: " ++ fmt03d est_idx ++ " | Epoch: " ++ fmt03d epoch ++
    " | Batch: " ++ fmt03d batch_idx ++ " | Loss: " ++ fmt5f loss ++
    " | Correct: " ++ Nat.repr correct ++ "/" ++ Nat.repr total

/-- The regressor's training log line: the same first four fields, with no
correct/total field. -/
def regressorLogMsg (est_idx epoch batch_idx : ℕ) (loss : ℚ) : String :=
  "Estimator: " ++ fmt03d est_idx ++ " | Epoch: " ++ fmt03d epoch ++
    " | Batch: " ++ fmt03d batch_idx ++ " | Loss: " ++ fmt5f loss

/-- The conditional `print` ending the classifier's batch loop: a line is
produced exactly when `batch_idx % self.log_interval == 0`. -/
def classifierBatchLog (log_interval est_idx epoch batch_idx : ℕ) (loss : ℚ)
    (correct total : ℕ) : Option String :=
  if batch_idx % log_interval = 0 then
    some (classifierLogMsg est_idx epoch batch_idx loss correct total)
  else none

/-- The conditional `print` ending the regressor's batch loop. -/
def regressorBatchLog (log_interval est_idx epoch batch_idx : ℕ) (loss : ℚ) :
    Option String :=
  if batch_idx % log_interval = 0 then
    some (regressorLogMsg est_idx epoch batch_idx loss)
  else none

/-- A concrete estimator for witnesses: a fixed 1 × 2 output. -/
def constEst : Estimator := { params := [1], apply := fun _ _ => [[0, 0]] }

/-- A concrete one-estimator ensemble for witnesses. -/
def sampleModule : BaseModule :=
  { estimators_ := [constEst], n_estimators := 1, output_dim := 2,
    lr := 1 / 100, weight_decay := 0, epochs := 1, log_interval := 1,
    training := true }

/-- A concrete one-example input batch for witnesses. -/
def sampleX : Mat := [[1, 2]]

/-- Variant of `sampleModule` with every hyperparameter changed but the same estimator
data, for the determinism witness. -/
def sampleModuleAlt : BaseModule :=
  { sampleModule with lr := 1, epochs := 7, log_interval := 3, training := false }

/-- Variant of `sampleModule` with only fields irrelevant to training sessions changed. -/
def sampleModuleLog : BaseModule :=
  { sampleModule with log_interval := 5, training := false }

/-- A trivial abstract optimizer step for witnesses (classifier targets). -/
def idStepC : Estimator → Unit → Mat × List ℕ → Estimator × Unit :=
  fun est o _ => (est, o)

/-- A trivial abstract optimizer step for witnesses (regressor targets). -/
def idStepR : Estimator → Unit → Mat × Mat → Estimator × Unit :=
  fun est o _ => (est, o)

/-- A trivial abstract optimizer constructor for witnesses. -/
def unitAdamInit : ℚ → ℚ → List ℚ → Unit := fun _ _ _ => ()

/-- An empty randomness stream for witnesses. -/
def noDraws : ℕ → ℕ → ℕ → List ℕ := fun _ _ _ => []

/-! ### Generic list-level lemmas -/

theorem getD_mem {α : Type} {l : List α} {n : ℕ} {d : α} (h : n < l.length) :
    l.getD n d ∈ l := by
  rw [List.getD_eq_getElem?_getD, List.getElem?_eq_getElem h]
  exact List.getElem_mem h

theorem getD_zipWith_add (a : List ℚ) (b : List ℚ) (j : ℕ)
    (hj : j < a.length) (hl : a.length = b.length) :
    (List.zipWith (· + ·) a b).getD j 0 = a.getD j 0 + b.getD j 0 := by
  induction a generalizing b j with
  | nil => simp at hj
  | cons x xs ih =>
    cases b with
    | nil => simp at hl
    | cons y ys =>
      cases j with
      | zero => simp
      | succ j =>
        simp only [List.zipWith_cons_cons, List.getD_cons_succ]
        exact ih ys j (by simpa using hj) (by simpa using hl)

theorem sum_zipWith_add (a : List ℚ) (b : List ℚ) (hl : a.length = b.length) :
    (List.zipWith (· + ·) a b).sum = a.sum + b.sum := by
  induction a generalizing b with
  | nil => cases b with
    | nil => simp
    | cons y ys => simp at hl
  | cons x xs ih =>
    cases b with
    | nil => simp at hl
    | cons y ys =>
      simp only [List.zipWith_cons_cons, List.sum_cons]
      rw [ih ys (by simpa using hl)]
      ring

theorem mem_zipWith_add {q : ℚ} {a b : List ℚ} (h : q ∈ List.zipWith (· + ·) a b) :
    ∃ x ∈ a, ∃ y ∈ b, q = x + y := by
  induction a generalizing b with
  | nil => simp [List.zipWith] at h
  | cons x xs ih =>
    cases b with
    | nil => simp [List.zipWith] at h
    | cons y ys =>
      simp only [List.zipWith_cons_cons, List.mem_cons] at h
      rcases h with h | h
      · exact ⟨x, by simp, y, by simp, h⟩
      · rcases ih h with ⟨x', hx', y', hy', hq⟩
        exact ⟨x', by simp [hx'], y', by simp [hy'], hq⟩

theorem getD_map_elem (f : ℚ → ℚ) (hf : f 0 = 0) (l : List ℚ) (j : ℕ) :
    (l.map f).getD j 0 = f (l.getD j 0) := by
  induction l generalizing j with
  | nil => simp [hf]
  | cons x xs ih =>
    cases j with
    | zero => simp
    | succ j => simpa using ih j

theorem getD_map_row (f : List ℚ → List ℚ) (hf : f [] = []) (M : Torchensemble.Mat) (i : ℕ) :
    (M.map f).getD i [] = f (M.getD i []) := by
  induction M generalizing i with
  | nil => simp [hf]
  | cons r rs ih =>
    cases i with
    | zero => simp
    | succ i => simpa using ih i

theorem sum_map_div (l : List ℚ) (c : ℚ) :
    (l.map (fun x => x / c)).sum = l.sum / c := by
  induction l with
  | nil => simp
  | cons x xs ih => simp [ih, add_div]

theorem getD_replicate_row (r : ℕ) (x : List ℚ) {i : ℕ} (hi : i < r) :
    (List.replicate r x).getD i [] = x := by
  rw [List.getD_eq_getElem?_getD, List.getElem?_replicate]
  simp [hi]

/-! ### Shape and row lemmas about the tensor operations -/

theorem mem_matAdd {row : List ℚ} {A B : Mat} (h : row ∈ matAdd A B) :
    ∃ a ∈ A, ∃ b ∈ B, row = List.zipWith (· + ·) a b := by
  induction A generalizing B with
  | nil => simp [matAdd] at h
  | cons a as ih =>
    cases B with
    | nil => simp [matAdd] at h
    | cons b bs =>
      simp only [matAdd, List.zipWith_cons_cons, List.mem_cons] at h
      rcases h with h | h
      · exact ⟨a, by simp, b, by simp, h⟩
      · rcases ih h with ⟨a', ha', b', hb', hrw⟩
        exact ⟨a', by simp [ha'], b', by simp [hb'], hrw⟩

theorem matAdd_isShape {A B : Mat} {r c : ℕ} (hA : IsShape A r c) (hB : IsShape B r c) :
    IsShape (matAdd A B) r c := by
  obtain ⟨hAl, hAr⟩ := hA
  obtain ⟨hBl, hBr⟩ := hB
  constructor
  · simp [matAdd, hAl, hBl]
  · intro row hrow
    rcases mem_matAdd hrow with ⟨a, ha, b, hb, hrw⟩
    rw [hrw, List.length_zipWith, hAr a ha, hBr b hb, min_self]

theorem getD_matAdd (A B : Mat) (i : ℕ) (hA : i < A.length) (hB : i < B.length) :
    (matAdd A B).getD i [] =
      List.zipWith (· + ·) (A.getD i []) (B.getD i []) := by
  induction A generalizing B i with
  | nil => simp at hA
  | cons a as ih =>
    cases B with
    | nil => simp at hB
    | cons b bs =>
      cases i with
      | zero => simp [matAdd]
      | succ i =>
        simp only [matAdd, List.zipWith_cons_cons, List.getD_cons_succ]
        exact ih bs i (by simpa using hA) (by simpa using hB)

theorem matZeros_shape (r c : ℕ) : IsShape (matZeros r c) r c := by
  constructor
  · simp [matZeros]
  · intro row hrow
    rw [List.eq_of_mem_replicate hrow]
    simp

theorem softmaxRow_length (e : ℚ → ℚ) (row : List ℚ) :
    (softmaxRow e row).length = row.length := by
  simp [softmaxRow]

theorem softmax_shape {e : ℚ → ℚ} {A : Mat} {r c : ℕ} (h : IsShape A r c) :
    IsShape (softmax e A) r c := by
  obtain ⟨hl, hr⟩ := h
  constructor
  · simp [softmax, hl]
  · intro row hrow
    simp only [softmax, List.mem_map] at hrow
    rcases hrow with ⟨row', hrow', rfl⟩
    rw [softmaxRow_length]
    exact hr row' hrow'

theorem softmaxRow_sum (e : ℚ → ℚ) (he : ∀ x, 0 < e x) (row : List ℚ) (hrow : row ≠ []) :
    (softmaxRow e row).sum = 1 := by
  have hS : 0 < (row.map e).sum := by
    apply List.sum_pos
    · intro x hx
      rcases List.mem_map.mp hx with ⟨y, _, rfl⟩
      exact he y
    · simpa using hrow
  have : (softmaxRow e row).sum = (row.map e).sum / (row.map e).sum := by
    rw [softmaxRow]
    have : (row.map (fun x => e x / (row.map e).sum)) =
        ((row.map e).map (fun x => x / (row.map e).sum)) := by
      rw [List.map_map]
      rfl
    rw [this, sum_map_div]
  rw [this, div_self (ne_of_gt hS)]

theorem softmaxRow_nonneg (e : ℚ → ℚ) (he : ∀ x, 0 < e x) (row : List ℚ) :
    ∀ q ∈ softmaxRow e row, 0 ≤ q := by
  intro q hq
  rcases List.mem_map.mp hq with ⟨y, _, rfl⟩
  rcases List.eq_nil_or_concat row with rfl | _
  · simp [softmaxRow] at hq
  · apply div_nonneg (le_of_lt (he y))
    apply List.sum_nonneg
    intro x hx
    rcases List.mem_map.mp hx with ⟨z, _, rfl⟩
    exact le_of_lt (he z)

theorem foldl_zipWith_length (rs : List (List ℚ)) (c : ℕ) (z : List ℚ)
    (hz : z.length = c) (hrs : ∀ r ∈ rs, r.length = c) :
    (rs.foldl (fun acc r => List.zipWith (· + ·) acc r) z).length = c := by
  induction rs generalizing z with
  | nil => simpa using hz
  | cons r rs ih =>
    simp only [List.foldl_cons]
    refine ih _ ?_ (fun r hr => hrs r (by simp [hr]))
    rw [List.length_zipWith, hz, hrs r (by simp), min_self]

theorem foldl_zipWith_getD (rs : List (List ℚ)) (c : ℕ) (z : List ℚ)
    (hz : z.length = c) (hrs : ∀ r ∈ rs, r.length = c) (j : ℕ) (hj : j < c) :
    (rs.foldl (fun acc r => List.zipWith (· + ·) acc r) z).getD j 0
      = z.getD j 0 + (rs.map (fun r => r.getD j 0)).sum := by
  induction rs generalizing z with
  | nil => simp
  | cons r rs ih =>
    simp only [List.foldl_cons, List.map_cons, List.sum_cons]
    rw [ih _ (by rw [List.length_zipWith, hz, hrs r (by simp), min_self])
        (fun r hr => hrs r (by simp [hr]))]
    rw [getD_zipWith_add z r j (by rw [hz]; exact hj) (by rw [hz, hrs r (by simp)])]
    ring

theorem foldl_zipWith_sum (rs : List (List ℚ)) (c : ℕ) (z : List ℚ)
    (hz : z.length = c) (hrs : ∀ r ∈ rs, r.length = c) :
    (rs.foldl (fun acc r => List.zipWith (· + ·) acc r) z).sum
      = z.sum + (rs.map List.sum).sum := by
  induction rs generalizing z with
  | nil => simp
  | cons r rs ih =>
    simp only [List.foldl_cons, List.map_cons, List.sum_cons]
    rw [ih _ (by rw [List.length_zipWith, hz, hrs r (by simp), min_self])
        (fun r hr => hrs r (by simp [hr]))]
    rw [sum_zipWith_add z r (by rw [hz, hrs r (by simp)])]
    ring

theorem foldl_zipWith_nonneg (rs : List (List ℚ)) (z : List ℚ)
    (hzn : ∀ x ∈ z, 0 ≤ x) (hrn : ∀ r ∈ rs, ∀ x ∈ r, 0 ≤ x) :
    ∀ x ∈ rs.foldl (fun acc r => List.zipWith (· + ·) acc r) z, 0 ≤ x := by
  induction rs generalizing z with
  | nil => simpa using hzn
  | cons r rs ih =>
    simp only [List.foldl_cons]
    refine ih _ ?_ (fun r hr => hrn r (by simp [hr]))
    intro x hx
    rcases mem_zipWith_add hx with ⟨a, ha, b, hb, rfl⟩
    exact add_nonneg (hzn a ha) (hrn r (by simp) b hb)

theorem foldl_matAdd_isShape (ms : List Mat) (r c : ℕ) (Z : Mat)
    (hZ : IsShape Z r c) (hms : ∀ A ∈ ms, IsShape A r c) :
    IsShape (ms.foldl matAdd Z) r c := by
  induction ms generalizing Z with
  | nil => simpa using hZ
  | cons A ms ih =>
    simp only [List.foldl_cons]
    exact ih _ (matAdd_isShape hZ (hms A (by simp))) (fun A hA => hms A (by simp [hA]))

theorem foldl_matAdd_getD (ms : List Mat) (r c : ℕ) (Z : Mat)
    (hZ : IsShape Z r c) (hms : ∀ A ∈ ms, IsShape A r c) (i : ℕ) (hi : i < r) :
    (ms.foldl matAdd Z).getD i []
      = (ms.map (fun A => A.getD i [])).foldl
          (fun acc row => List.zipWith (· + ·) acc row) (Z.getD i []) := by
  induction ms generalizing Z with
  | nil => simp
  | cons A ms ih =>
    simp only [List.foldl_cons, List.map_cons]
    rw [ih _ (matAdd_isShape hZ (hms A (by simp))) (fun A hA => hms A (by simp [hA]))]
    rw [getD_matAdd Z A i (by rw [hZ.1]; exact hi) (by rw [(hms A (by simp)).1]; exact hi)]

/-- Row `i` of `BaggingClassifier.forward`, expressed as the per-estimator
softmax rows accumulated into a zero row and divided by `n_estimators`. -/
theorem classifier_forward_getD (e : ℚ → ℚ) (m : BaseModule) (X : Mat)
    (hsh : ∀ est ∈ m.estimators_, IsShape (est.run X) X.length m.output_dim)
    (i : ℕ) (hi : i < X.length) :
    (BaggingClassifier.forward e m X).getD i []
      = ((m.estimators_.map (fun est => (softmax e (est.run X)).getD i [])).foldl
          (fun acc row => List.zipWith (· + ·) acc row)
          (List.replicate m.output_dim 0)).map
          (fun x => x / (m.n_estimators : ℚ)) := by
  have hfold : m.estimators_.foldl
      (fun y est => matAdd y (softmax e (est.run X))) (matZeros X.length m.output_dim)
      = (m.estimators_.map (fun est => softmax e (est.run X))).foldl matAdd
          (matZeros X.length m.output_dim) := by
    rw [List.foldl_map]
  have hms : ∀ A ∈ m.estimators_.map (fun est => softmax e (est.run X)),
      IsShape A X.length m.output_dim := by
    intro A hA
    rcases List.mem_map.mp hA with ⟨est, hest, rfl⟩
    exact softmax_shape (hsh est hest)
  rw [BaggingClassifier.forward, matDivN, getD_map_row _ rfl, hfold,
    foldl_matAdd_getD _ X.length m.output_dim _ (matZeros_shape _ _) hms i hi,
    List.map_map]
  rw [matZeros, getD_replicate_row _ _ hi]
  rfl

/-- Row `i` of `BaggingRegressor.forward`, expressed as the per-estimator raw
output rows accumulated into a zero row and divided by `n_estimators`. -/
theorem regressor_forward_getD (m : BaseModule) (X : Mat)
    (hsh : ∀ est ∈ m.estimators_, IsShape (est.run X) X.length m.output_dim)
    (i : ℕ) (hi : i < X.length) :
    (BaggingRegressor.forward m X).getD i []
      = ((m.estimators_.map (fun est => (est.run X).getD i [])).foldl
          (fun acc row => List.zipWith (· + ·) acc row)
          (List.replicate m.output_dim 0)).map
          (fun x => x / (m.n_estimators : ℚ)) := by
  have hfold : m.estimators_.foldl
      (fun y est => matAdd y (est.run X)) (matZeros X.length m.output_dim)
      = (m.estimators_.map (fun est => est.run X)).foldl matAdd
          (matZeros X.length m.output_dim) := by
    rw [List.foldl_map]
  have hms : ∀ A ∈ m.estimators_.map (fun est => est.run X),
      IsShape A X.length m.output_dim := by
    intro A hA
    rcases List.mem_map.mp hA with ⟨est, hest, rfl⟩
    exact hsh est hest
  rw [BaggingRegressor.forward, matDivN, getD_map_row _ rfl, hfold,
    foldl_matAdd_getD _ X.length m.output_dim _ (matZeros_shape _ _) hms i hi,
    List.map_map]
  rw [matZeros, getD_replicate_row _ _ hi]
  rfl

/-! ### Claim theorems -/

/-- Claim C1: for an ensemble whose `estimators_` sequence has length
`n_estimators ≥ 1` and any input batch `X`, `forward` returns the unweighted
arithmetic mean of the per-estimator outputs — for `BaggingClassifier` the
mean of `softmax(estimator(X))`, for `BaggingRegressor` the mean of the raw
`estimator(X)` outputs (stated entrywise, over every in-range position). -/
theorem C1_forward_is_unweighted_mean (e : ℚ → ℚ) (m : BaseModule) (X : Mat)
    (hlen : m.estimators_.length = m.n_estimators)
    (hn : 1 ≤ m.n_estimators)
    (hsh : ∀ est ∈ m.estimators_, IsShape (est.run X) X.length m.output_dim)
    (i j : ℕ) (hi : i < X.length) (hj : j < m.output_dim) :
    entry (BaggingClassifier.forward e m X) i j
      = (m.estimators_.map (fun est => entry (softmax e (est.run X)) i j)).sum
          / (m.n_estimators : ℚ)
    ∧ entry (BaggingRegressor.forward m X) i j
      = (m.estimators_.map (fun est => entry (est.run X) i j)).sum
          / (m.n_estimators : ℚ) := by
  have hz : (List.replicate m.output_dim (0 : ℚ)).getD j 0 = 0 := by
    rw [List.getD_eq_getElem?_getD, List.getElem?_replicate]
    simp [hj]
  constructor
  · rw [entry, classifier_forward_getD e m X hsh i hi,
      getD_map_elem (fun x => x / (m.n_estimators : ℚ)) (zero_div _) _ j,
      foldl_zipWith_getD _ m.output_dim _ (by simp) ?_ j hj, hz, zero_add,
      List.map_map]
    · rfl
    · intro r hr
      rcases List.mem_map.mp hr with ⟨est, hest, rfl⟩
      exact (softmax_shape (hsh est hest)).2 _
        (getD_mem (by rw [(softmax_shape (hsh est hest)).1]; exact hi))
  · rw [entry, regressor_forward_getD m X hsh i hi,
      getD_map_elem (fun x => x / (m.n_estimators : ℚ)) (zero_div _) _ j,
      foldl_zipWith_getD _ m.output_dim _ (by simp) ?_ j hj, hz, zero_add,
      List.map_map]
    · rfl
    · intro r hr
      rcases List.mem_map.mp hr with ⟨est, hest, rfl⟩
      exact (hsh est hest).2 _ (getD_mem (by rw [(hsh est hest).1]; exact hi))

/-- Witness for C1 at a concrete one-estimator ensemble and batch. -/
theorem C1_forward_is_unweighted_mean_witness :
    entry (BaggingClassifier.forward (fun _ => 1) sampleModule sampleX) 0 0
      = (sampleModule.estimators_.map
          (fun est => entry (softmax (fun _ => 1) (est.run sampleX)) 0 0)).sum
          / (sampleModule.n_estimators : ℚ)
    ∧ entry (BaggingRegressor.forward sampleModule sampleX) 0 0
      = (sampleModule.estimators_.map
          (fun est => entry (est.run sampleX) 0 0)).sum
          / (sampleModule.n_estimators : ℚ) :=
  C1_forward_is_unweighted_mean (fun _ => 1) sampleModule sampleX rfl
    (by decide)
    (by
      intro est hest
      simp only [sampleModule, List.mem_singleton] at hest
      subst hest
      refine ⟨rfl, ?_⟩
      intro row hrow
      simp only [constEst, Estimator.run, List.mem_singleton] at hrow
      simp [hrow, sampleModule])
    0 0 (by decide) (by decide)

/-- Claim C5: for any input batch and any number of estimators ≥ 1 (with the
exponential positive, as the real exponential is), every in-range row of
`BaggingClassifier.forward`'s output is a probability distribution: all
entries are non-negative and the row sums to 1. -/
theorem C5_forward_rows_are_distributions (e : ℚ → ℚ) (m : BaseModule) (X : Mat)
    (he : ∀ x, 0 < e x)
    (hlen : m.estimators_.length = m.n_estimators)
    (hn : 1 ≤ m.n_estimators)
    (hc : 1 ≤ m.output_dim)
    (hsh : ∀ est ∈ m.estimators_, IsShape (est.run X) X.length m.output_dim)
    (i : ℕ) (hi : i < X.length) :
    (∀ q ∈ (BaggingClassifier.forward e m X).getD i [], 0 ≤ q)
    ∧ ((BaggingClassifier.forward e m X).getD i []).sum = 1 := by
  rw [classifier_forward_getD e m X hsh i hi]
  have hrows : ∀ r ∈ m.estimators_.map (fun est => (softmax e (est.run X)).getD i []),
      r.length = m.output_dim := by
    intro r hr
    rcases List.mem_map.mp hr with ⟨est, hest, rfl⟩
    exact (softmax_shape (hsh est hest)).2 _
      (getD_mem (by rw [(softmax_shape (hsh est hest)).1]; exact hi))
  have hsoftrow : ∀ est ∈ m.estimators_,
      (softmax e (est.run X)).getD i [] = softmaxRow e ((est.run X).getD i []) := by
    intro est hest
    exact getD_map_row (softmaxRow e) rfl _ i
  have hnQ : (0 : ℚ) < (m.n_estimators : ℚ) := by
    exact_mod_cast Nat.lt_of_lt_of_le Nat.zero_lt_one hn
  constructor
  · intro q hq
    rcases List.mem_map.mp hq with ⟨x, hx, rfl⟩
    refine div_nonneg ?_ (le_of_lt hnQ)
    refine foldl_zipWith_nonneg _ _ (fun y hy => ?_) (fun r hr => ?_) x hx
    · rw [List.eq_of_mem_replicate hy]
    · rcases List.mem_map.mp hr with ⟨est, hest, rfl⟩
      rw [hsoftrow est hest]
      exact softmaxRow_nonneg e he _
  · rw [sum_map_div,
      foldl_zipWith_sum _ m.output_dim _ (by simp) hrows, List.map_map]
    have hone : ∀ est ∈ m.estimators_,
        (List.sum ∘ fun est => (softmax e (est.run X)).getD i []) est = (1 : ℚ) := by
      intro est hest
      have hne : (est.run X).getD i [] ≠ [] := by
        have : ((est.run X).getD i []).length = m.output_dim :=
          (hsh est hest).2 _ (getD_mem (by rw [(hsh est hest).1]; exact hi))
        intro hnil
        rw [hnil] at this
        simp at this
        omega
      simp only [Function.comp_apply, hsoftrow est hest]
      exact softmaxRow_sum e he _ hne
    rw [List.map_congr_left hone, List.map_const', hlen]
    simp [List.sum_replicate, nsmul_eq_mul, div_self (ne_of_gt hnQ)]

/-- Witness for C5 at a concrete one-estimator ensemble and batch. -/
theorem C5_forward_rows_are_distributions_witness :
    (∀ q ∈ (BaggingClassifier.forward (fun _ => 1) sampleModule sampleX).getD 0 [], 0 ≤ q)
    ∧ ((BaggingClassifier.forward (fun _ => 1) sampleModule sampleX).getD 0 []).sum = 1 :=
  C5_forward_rows_are_distributions (fun _ => 1) sampleModule sampleX
    (fun _ => one_pos) rfl (by decide) (by decide)
    (by
      intro est hest
      simp only [sampleModule, List.mem_singleton] at hest
      subst hest
      refine ⟨rfl, ?_⟩
      intro row hrow
      simp only [constEst, Estimator.run, List.mem_singleton] at hrow
      simp [hrow, sampleModule])
    0 (by decide)

theorem map_getD_sublist_aux {α : Type} (d : α) :
    ∀ (idx : List ℕ) (X : List α) (n : ℕ), idx.Pairwise (· < ·) →
      (∀ i ∈ idx, n ≤ i ∧ i < X.length + n) →
      List.Sublist (idx.map (fun i => X.getD (i - n) d)) X := by
  intro idx
  induction idx with
  | nil => intro X n _ _; simp
  | cons i rest ih =>
    intro X n hpw hbd
    have hi : n ≤ i ∧ i < X.length + n := hbd i (by simp)
    have hilt : i - n < X.length := by omega
    have hrest : ∀ j ∈ rest, i < j := fun j hj => (List.pairwise_cons.mp hpw).1 j hj
    have hmapeq : rest.map (fun j => X.getD (j - n) d)
        = rest.map (fun j => (X.drop (i - n + 1)).getD (j - (i + 1)) d) := by
      apply List.map_congr_left
      intro j hj
      have hij : i < j := hrest j hj
      have hjbd : n ≤ j ∧ j < X.length + n := hbd j (by simp [hj])
      rw [List.getD_eq_getElem?_getD, List.getD_eq_getElem?_getD, List.getElem?_drop]
      have harith : i - n + 1 + (j - (i + 1)) = j - n := by omega
      rw [harith]
    have hsub : List.Sublist (rest.map (fun j => (X.drop (i - n + 1)).getD (j - (i + 1)) d))
        (X.drop (i - n + 1)) := by
      refine ih (X.drop (i - n + 1)) (i + 1) (List.pairwise_cons.mp hpw).2 ?_
      intro j hj
      have hij : i < j := hrest j hj
      have hjbd : n ≤ j ∧ j < X.length + n := hbd j (by simp [hj])
      rw [List.length_drop]
      omega
    have hdrop : X.drop (i - n) = X.getD (i - n) d :: X.drop (i - n + 1) := by
      rw [List.getD_eq_getElem X d hilt]
      exact List.drop_eq_getElem_cons hilt
    simp only [List.map_cons]
    rw [hmapeq]
    refine List.Sublist.trans ?_ (List.drop_sublist (i - n) X)
    rw [hdrop]
    exact hsub.cons₂ _

theorem map_getD_sublist {α : Type} (d : α) (idx : List ℕ) (X : List α)
    (hpw : idx.Pairwise (· < ·)) (hbd : ∀ i ∈ idx, i < X.length) :
    List.Sublist (idx.map (fun i => X.getD i d)) X := by
  have := map_getD_sublist_aux d idx X 0 hpw (fun i hi => ⟨Nat.zero_le i, by
    have := hbd i hi
    omega⟩)
  simpa using this

theorem torchUnique_pairwise_lt (l : List ℕ) : (torchUnique l).Pairwise (· < ·) := by
  have hsorted : List.Sorted (· ≤ ·) (torchUnique l) :=
    List.sorted_insertionSort _ _
  have hnd : (torchUnique l).Nodup :=
    (List.perm_insertionSort _ _).symm.nodup l.nodup_dedup
  refine (hsorted.and hnd).imp ?_
  rintro a b ⟨h1, h2⟩
  exact lt_of_le_of_ne h1 h2

/-- Claim C2: the bootstrap mask built in `fit` from a full draw of `B`
values in `[0, B)` (`torch.randint` then `torch.unique`) has between 1 and
`B` elements, only indices below `B`, and no duplicates. -/
theorem C2_bootstrap_mask_wellformed (B : ℕ) (draw : List ℕ)
    (hB : 1 ≤ B) (hlen : draw.length = B) (hmem : ∀ x ∈ draw, x < B) :
    1 ≤ (torchUnique draw).length ∧ (torchUnique draw).length ≤ B
    ∧ (∀ x ∈ torchUnique draw, x < B) ∧ (torchUnique draw).Nodup := by
  have hperm : List.Perm (torchUnique draw) draw.dedup :=
    List.perm_insertionSort _ _
  have hlen2 : (torchUnique draw).length = draw.dedup.length := hperm.length_eq
  refine ⟨?_, ?_, ?_, ?_⟩
  · have hne : draw ≠ [] := by
      intro h
      rw [h] at hlen
      simp at hlen
      omega
    have : draw.dedup ≠ [] := fun h => hne ((List.dedup_eq_nil draw).mp h)
    rw [hlen2]
    exact List.length_pos.mpr this
  · rw [hlen2, ← hlen]
    exact draw.dedup_sublist.length_le
  · intro x hx
    exact hmem x (List.mem_dedup.mp (hperm.mem_iff.mp hx))
  · exact hperm.symm.nodup draw.nodup_dedup

/-- Witness for C2 at a concrete draw. -/
theorem C2_bootstrap_mask_wellformed_witness :
    1 ≤ (torchUnique [2, 0, 2]).length ∧ (torchUnique [2, 0, 2]).length ≤ 3
    ∧ (∀ x ∈ torchUnique [2, 0, 2], x < 3) ∧ (torchUnique [2, 0, 2]).Nodup :=
  C2_bootstrap_mask_wellformed 3 [2, 0, 2] (by decide) (by decide) (by decide)

/-- Claim C10 (implicit): the deduplicated bootstrap mask is strictly
increasing (`torch.unique` sorts), so gathering a batch's rows along it
preserves the examples' original within-batch order — the sampled sub-batch
is a sublist of the batch. -/
theorem C10_mask_sorted_and_order_preserving (X : Mat) (draw : List ℕ)
    (hmem : ∀ x ∈ draw, x < X.length) :
    (torchUnique draw).Pairwise (· < ·)
    ∧ List.Sublist (indexSelect X [] (torchUnique draw)) X := by
  refine ⟨torchUnique_pairwise_lt draw, ?_⟩
  refine map_getD_sublist [] (torchUnique draw) X (torchUnique_pairwise_lt draw) ?_
  intro i hi
  exact hmem i (List.mem_dedup.mp ((List.perm_insertionSort _ _).mem_iff.mp hi))

/-- Witness for C10 at a concrete batch and draw. -/
theorem C10_mask_sorted_and_order_preserving_witness :
    (torchUnique [1, 0, 1]).Pairwise (· < ·)
    ∧ List.Sublist (indexSelect [[(1 : ℚ)], [2]] [] (torchUnique [1, 0, 1]))
        [[(1 : ℚ)], [2]] :=
  C10_mask_sorted_and_order_preserving [[(1 : ℚ)], [2]] [1, 0, 1] (by decide)

theorem foldl_add_eq_sum {α M : Type} [AddCommMonoid M] (f : α → M) :
    ∀ (l : List α) (z : M), l.foldl (fun acc x => acc + f x) z = z + (l.map f).sum := by
  intro l
  induction l with
  | nil => intro z; simp
  | cons x xs ih =>
    intro z
    rw [List.foldl_cons, ih, List.map_cons, List.sum_cons, add_assoc]

theorem classifier_forward_evalMode (e : ℚ → ℚ) (m : BaseModule) (X : Mat) :
    BaggingClassifier.forward e { m with training := false } X
      = BaggingClassifier.forward e m X := rfl

theorem regressor_forward_evalMode (m : BaseModule) (X : Mat) :
    BaggingRegressor.forward { m with training := false } X
      = BaggingRegressor.forward m X := rfl

/-- Claim C3: `BaggingRegressor.predict` returns the sum of the per-batch MSE
values (each through `forward`) divided by the number of batches; in
particular a 2-batch stream yields the plain average of the two batch MSEs,
with no batch-size weighting. -/
theorem C3_predict_regressor_mean_of_batch_mse (m : BaseModule)
    (test_loader : List (Mat × Mat)) (hne : 0 < test_loader.length) :
    (BaggingRegressor.predict m test_loader).1
      = (test_loader.map (fun b => mseLoss (BaggingRegressor.forward m b.1) b.2)).sum
          / (test_loader.length : ℚ)
    ∧ ∀ b1 b2 : Mat × Mat,
        (BaggingRegressor.predict m [b1, b2]).1
          = (mseLoss (BaggingRegressor.forward m b1.1) b1.2
              + mseLoss (BaggingRegressor.forward m b2.1) b2.2) / 2 := by
  constructor
  · show (test_loader.foldl _ 0) / _ = _
    simp only [regressor_forward_evalMode]
    rw [foldl_add_eq_sum (fun b => mseLoss (BaggingRegressor.forward m b.1) b.2)
        test_loader 0, zero_add]
  · intro b1 b2
    show (([b1, b2].foldl _ 0) / _ : ℚ) = _
    simp only [regressor_forward_evalMode]
    rw [foldl_add_eq_sum (fun b => mseLoss (BaggingRegressor.forward m b.1) b.2)
        [b1, b2] 0, zero_add]
    norm_num

/-- Witness for C3 at a concrete two-batch stream. -/
theorem C3_predict_regressor_mean_of_batch_mse_witness :
    (BaggingRegressor.predict sampleModule [(sampleX, [[0, 0]]), (sampleX, [[1, 1]])]).1
      = ([(sampleX, [[0, 0]]), (sampleX, [[1, 1]])].map
          (fun b => mseLoss (BaggingRegressor.forward sampleModule b.1) b.2)).sum
          / (([(sampleX, [[0, 0]]), (sampleX, [[1, 1]])] : List (Mat × Mat)).length : ℚ)
    ∧ ∀ b1 b2 : Mat × Mat,
        (BaggingRegressor.predict sampleModule [b1, b2]).1
          = (mseLoss (BaggingRegressor.forward sampleModule b1.1) b1.2
              + mseLoss (BaggingRegressor.forward sampleModule b2.1) b2.2) / 2 :=
  C3_predict_regressor_mean_of_batch_mse sampleModule
    [(sampleX, [[0, 0]]), (sampleX, [[1, 1]])] (by decide)

/-- Claim C4: `BaggingClassifier.predict` counts, over every batch of the
stream, the examples whose arg-max class under `forward` equals the target,
and returns `100 ×` that total divided by the total example count of the
whole stream — a dataset-level accuracy, not an average of per-batch
accuracies. -/
theorem C4_predict_classifier_dataset_accuracy (e : ℚ → ℚ) (m : BaseModule)
    (test_loader : List (Mat × List ℕ))
    (hne : 0 < (test_loader.map (fun b => b.2.length)).sum) :
    (BaggingClassifier.predict e m test_loader).1
      = 100 * (((test_loader.map
            (fun b => countCorrect (BaggingClassifier.forward e m b.1) b.2)).sum : ℕ) : ℚ)
          / (((test_loader.map (fun b => b.2.length)).sum : ℕ) : ℚ) := by
  show 100 * ((test_loader.foldl _ 0 : ℕ) : ℚ) / _ = _
  simp only [classifier_forward_evalMode]
  rw [foldl_add_eq_sum (fun b => countCorrect (BaggingClassifier.forward e m b.1) b.2)
      test_loader 0, Nat.zero_add]
  push_cast
  simp only [List.map_map]
  rfl

/-- Witness for C4 at a concrete two-batch stream. -/
theorem C4_predict_classifier_dataset_accuracy_witness :
    (BaggingClassifier.predict (fun _ => 1) sampleModule [(sampleX, [0]), (sampleX, [1])]).1
      = 100 * ((([(sampleX, [0]), (sampleX, [1])].map
            (fun b => countCorrect (BaggingClassifier.forward (fun _ => 1) sampleModule b.1)
              b.2)).sum : ℕ) : ℚ)
          / (((([(sampleX, [0]), (sampleX, [1])] : List (Mat × List ℕ)).map
            (fun b => b.2.length)).sum : ℕ) : ℚ) :=
  C4_predict_classifier_dataset_accuracy (fun _ => 1) sampleModule
    [(sampleX, [0]), (sampleX, [1])] (by decide)

/-- Claim C6: `predict` — on the classifier or the regressor, iterated any
number of times — leaves the `estimators_` sequence, and hence every
estimator's parameters, exactly as it was (only the train/eval mode flag is
written). -/
theorem C6_predict_preserves_estimators (e : ℚ → ℚ)
    (Lc : List (Mat × List ℕ)) (Lr : List (Mat × Mat)) (m : BaseModule) (n : ℕ) :
    ((fun s => (BaggingClassifier.predict e s Lc).2)^[n] m).estimators_ = m.estimators_
    ∧ ((fun s => (BaggingRegressor.predict s Lr).2)^[n] m).estimators_ = m.estimators_ := by
  constructor
  · induction n generalizing m with
    | zero => rfl
    | succ k ih =>
      rw [Function.iterate_succ_apply, ih]
      rfl
  · induction n generalizing m with
    | zero => rfl
    | succ k ih =>
      rw [Function.iterate_succ_apply, ih]
      rfl

/-- Claim C9: `forward` is deterministic and reads nothing but the estimator
sequence, `n_estimators` and `output_dim`: two ensembles agreeing on these
(identical estimator weights) produce identical outputs on every input, for
the classifier and the regressor alike; as a pure function it writes no
state. -/
theorem C9_forward_deterministic (e : ℚ → ℚ) (m1 m2 : BaseModule) (X : Mat)
    (hest : m1.estimators_ = m2.estimators_)
    (hn : m1.n_estimators = m2.n_estimators)
    (hd : m1.output_dim = m2.output_dim) :
    BaggingClassifier.forward e m1 X = BaggingClassifier.forward e m2 X
    ∧ BaggingRegressor.forward m1 X = BaggingRegressor.forward m2 X := by
  constructor
  · simp only [BaggingClassifier.forward, hest, hn, hd]
  · simp only [BaggingRegressor.forward, hest, hn, hd]

/-- Witness for C9: two modules differing in every hyperparameter other than
the estimator data give identical `forward` outputs. -/
theorem C9_forward_deterministic_witness :
    BaggingClassifier.forward (fun _ => 1) sampleModule sampleX
      = BaggingClassifier.forward (fun _ => 1) sampleModuleAlt sampleX
    ∧ BaggingRegressor.forward sampleModule sampleX
      = BaggingRegressor.forward sampleModuleAlt sampleX :=
  C9_forward_deterministic (fun _ => 1) sampleModule sampleModuleAlt sampleX rfl rfl rfl

theorem fitSessions_getElem? (f : ℕ → Estimator → Estimator) :
    ∀ (l : List Estimator) (i j : ℕ),
      (fitSessions f i l)[j]? = (l[j]?).map (f (i + j)) := by
  intro l
  induction l with
  | nil => intro i j; simp [fitSessions]
  | cons est rest ih =>
    intro i j
    cases j with
    | zero => simp [fitSessions]
    | succ j =>
      simp only [fitSessions, List.getElem?_cons_succ]
      rw [ih (i + 1) j]
      have : i + 1 + j = i + (j + 1) := by omega
      rw [this]

/-- Claim C7: in `fit` (classifier and regressor alike) each estimator is
trained by its own session — a fresh optimizer built at the session's start
from that estimator's own parameters — strictly in index order: the
estimator stored at index `j` afterwards is exactly its own session's result
(first two conjuncts), so it depends only on the estimator previously at
index `j` and on nothing owned by any other estimator: two ensembles
agreeing at index `j` (and on the shared hyperparameters) agree at index `j`
after `fit` (last conjunct). -/
theorem C7_fit_sessions_isolated {σc σr : Type}
    (stepc : Estimator → σc → Mat × List ℕ → Estimator × σc)
    (stepr : Estimator → σr → Mat × Mat → Estimator × σr)
    (adamInitC : ℚ → ℚ → List ℚ → σc) (adamInitR : ℚ → ℚ → List ℚ → σr)
    (Lc : List (Mat × List ℕ)) (Lr : List (Mat × Mat))
    (draws : ℕ → ℕ → ℕ → List ℕ) (m m1 m2 : BaseModule) (j : ℕ)
    (hj : m1.estimators_[j]? = m2.estimators_[j]?)
    (hlr : m1.lr = m2.lr) (hwd : m1.weight_decay = m2.weight_decay)
    (hep : m1.epochs = m2.epochs) :
    ((BaggingClassifier.fit stepc adamInitC Lc draws m).estimators_)[j]?
      = (m.estimators_[j]?).map (fun est =>
          trainOneEstimator stepc (fun y mask => indexSelect y 0 mask)
            (adamInitC m.lr m.weight_decay) m.epochs Lc (draws j) est)
    ∧ ((BaggingRegressor.fit stepr adamInitR Lr draws m).estimators_)[j]?
      = (m.estimators_[j]?).map (fun est =>
          trainOneEstimator stepr (fun y mask => indexSelect y [] mask)
            (adamInitR m.lr m.weight_decay) m.epochs Lr (draws j) est)
    ∧ ((BaggingClassifier.fit stepc adamInitC Lc draws m1).estimators_)[j]?
      = ((BaggingClassifier.fit stepc adamInitC Lc draws m2).estimators_)[j]? := by
  have hC : ∀ mm : BaseModule,
      ((BaggingClassifier.fit stepc adamInitC Lc draws mm).estimators_)[j]?
        = (mm.estimators_[j]?).map (fun est =>
            trainOneEstimator stepc (fun y mask => indexSelect y 0 mask)
              (adamInitC mm.lr mm.weight_decay) mm.epochs Lc (draws j) est) := by
    intro mm
    show (fitSessions _ 0 mm.estimators_)[j]? = _
    rw [fitSessions_getElem?]
    rw [Nat.zero_add]
  have hR : ((BaggingRegressor.fit stepr adamInitR Lr draws m).estimators_)[j]?
      = (m.estimators_[j]?).map (fun est =>
          trainOneEstimator stepr (fun y mask => indexSelect y [] mask)
            (adamInitR m.lr m.weight_decay) m.epochs Lr (draws j) est) := by
    show (fitSessions _ 0 m.estimators_)[j]? = _
    rw [fitSessions_getElem?]
    rw [Nat.zero_add]
  refine ⟨hC m, hR, ?_⟩
  rw [hC m1, hC m2, hj, hlr, hwd, hep]

/-- Witness for C7 at a concrete ensemble with a trivial optimizer state. -/
theorem C7_fit_sessions_isolated_witness :
    ((BaggingClassifier.fit idStepC unitAdamInit [] noDraws sampleModule).estimators_)[0]?
      = (sampleModule.estimators_[0]?).map (fun est =>
          trainOneEstimator idStepC (fun y mask => indexSelect y 0 mask)
            (unitAdamInit sampleModule.lr sampleModule.weight_decay)
            sampleModule.epochs [] (noDraws 0) est)
    ∧ ((BaggingRegressor.fit idStepR unitAdamInit [] noDraws sampleModule).estimators_)[0]?
      = (sampleModule.estimators_[0]?).map (fun est =>
          trainOneEstimator idStepR (fun y mask => indexSelect y [] mask)
            (unitAdamInit sampleModule.lr sampleModule.weight_decay)
            sampleModule.epochs [] (noDraws 0) est)
    ∧ ((BaggingClassifier.fit idStepC unitAdamInit [] noDraws sampleModule).estimators_)[0]?
      = ((BaggingClassifier.fit idStepC unitAdamInit [] noDraws sampleModuleLog).estimators_)[0]? :=
  C7_fit_sessions_isolated idStepC idStepR unitAdamInit unitAdamInit [] [] noDraws
    sampleModule sampleModule sampleModuleLog 0 rfl rfl rfl rfl

theorem digitChar_mod_isDigit (x : ℕ) : (Nat.digitChar (x % 10)).isDigit = true := by
  have h : x % 10 < 10 := Nat.mod_lt _ (by norm_num)
  interval_cases h2 : x % 10 <;> decide

/-- Claim C8: during `fit` a log line is produced for a batch exactly when
`batch_idx % log_interval = 0`; the line is pipe-delimited with 3-digit
(zero-padded) estimator, epoch and batch fields and a 5-decimal loss field;
the classifier's line ends with a correct/total field and the regressor's
has none. -/
theorem C8_log_emission_and_format (k i ep b : ℕ) (loss : ℚ) (c t : ℕ)
    (hk : 0 < k) (hi : i < 1000) (hep : ep < 1000) (hb : b < 1000) :
    ((classifierBatchLog k i ep b loss c t).isSome ↔ b % k = 0)
    ∧ ((regressorBatchLog k i ep b loss).isSome ↔ b % k = 0)
    ∧ classifierLogMsg i ep b loss c t
        = String.intercalate " | "
            ["Estimator: " ++ fmt03d i, "Epoch: " ++ fmt03d ep,
              "Batch: " ++ fmt03d b, "Loss: " ++ fmt5f loss,
              "Correct: " ++ Nat.repr c ++ "/" ++ Nat.repr t]
    ∧ regressorLogMsg i ep b loss
        = String.intercalate " | "
            ["Estimator: " ++ fmt03d i, "Epoch: " ++ fmt03d ep,
              "Batch: " ++ fmt03d b, "Loss: " ++ fmt5f loss]
    ∧ (fmt03d i).length = 3 ∧ (fmt03d ep).length = 3 ∧ (fmt03d b).length = 3
    ∧ ∃ ipart : String, ∃ frac : List Char,
        fmt5f loss = ipart ++ "." ++ String.mk frac ∧ frac.length = 5
        ∧ ∀ ch ∈ frac, ch.isDigit = true := by
  have hEp : ∀ s : String, " | " ++ ("Epoch: " ++ s) = " | Epoch: " ++ s := fun s => by
    rw [← String.append_assoc]
    rfl
  have hBa : ∀ s : String, " | " ++ ("Batch: " ++ s) = " | Batch: " ++ s := fun s => by
    rw [← String.append_assoc]
    rfl
  have hLo : ∀ s : String, " | " ++ ("Loss: " ++ s) = " | Loss: " ++ s := fun s => by
    rw [← String.append_assoc]
    rfl
  have hCo : ∀ s : String, " | " ++ ("Correct: " ++ s) = " | Correct: " ++ s := fun s => by
    rw [← String.append_assoc]
    rfl
  refine ⟨?_, ?_, ?_, ?_, ?_, ?_, ?_, ?_⟩
  · by_cases h : b % k = 0 <;> simp [classifierBatchLog, h]
  · by_cases h : b % k = 0 <;> simp [regressorBatchLog, h]
  · simp [classifierLogMsg, String.intercalate, String.intercalate.go,
      String.append_assoc, hEp, hBa, hLo, hCo]
  · simp [regressorLogMsg, String.intercalate, String.intercalate.go,
      String.append_assoc, hEp, hBa, hLo]
  · rw [fmt03d, if_pos hi]
    rfl
  · rw [fmt03d, if_pos hep]
    rfl
  · rw [fmt03d, if_pos hb]
    rfl
  · refine ⟨(if round (loss * 100000) < 0 then "-" else "")
        ++ Nat.repr ((round (loss * 100000)).natAbs / 100000),
      [Nat.digitChar ((round (loss * 100000)).natAbs / 10000 % 10),
        Nat.digitChar ((round (loss * 100000)).natAbs / 1000 % 10),
        Nat.digitChar ((round (loss * 100000)).natAbs / 100 % 10),
        Nat.digitChar ((round (loss * 100000)).natAbs / 10 % 10),
        Nat.digitChar ((round (loss * 100000)).natAbs % 10)], rfl, rfl, ?_⟩
    intro ch hch
    simp only [List.mem_cons, List.not_mem_nil, or_false] at hch
    rcases hch with rfl | rfl | rfl | rfl | rfl
    · exact digitChar_mod_isDigit _
    · exact digitChar_mod_isDigit _
    · exact digitChar_mod_isDigit _
    · exact digitChar_mod_isDigit _
    · exact digitChar_mod_isDigit _

/-- Witness for C8 at concrete indices, interval and loss. -/
theorem C8_log_emission_and_format_witness :
    ((classifierBatchLog 2 1 0 4 (1 / 2) 3 5).isSome ↔ 4 % 2 = 0)
    ∧ ((regressorBatchLog 2 1 0 4 (1 / 2)).isSome ↔ 4 % 2 = 0)
    ∧ classifierLogMsg 1 0 4 (1 / 2) 3 5
        = String.intercalate " | "
            ["Estimator: " ++ fmt03d 1, "Epoch: " ++ fmt03d 0,
              "Batch: " ++ fmt03d 4, "Loss: " ++ fmt5f (1 / 2),
              "Correct: " ++ Nat.repr 3 ++ "/" ++ Nat.repr 5]
    ∧ regressorLogMsg 1 0 4 (1 / 2)
        = String.intercalate " | "
            ["Estimator: " ++ fmt03d 1, "Epoch: " ++ fmt03d 0,
              "Batch: " ++ fmt03d 4, "Loss: " ++ fmt5f (1 / 2)]
    ∧ (fmt03d 1).length = 3 ∧ (fmt03d 0).length = 3 ∧ (fmt03d 4).length = 3
    ∧ ∃ ipart : String, ∃ frac : List Char,
        fmt5f (1 / 2) = ipart ++ "." ++ String.mk frac ∧ frac.length = 5
        ∧ ∀ ch ∈ frac, ch.isDigit = true :=
  C8_log_emission_and_format 2 1 0 4 (1 / 2) 3 5 (by decide) (by decide)
    (by decide) (by decide)

end Torchensemble
